import Mathlib

/-!
Verification development for the openclaw-mcp-router repository.

The TypeScript sources are shallowly embedded in Lean:
* JS strings are modelled as `List Char` (`Str`) where character-level
  slicing matters (the chunker), and as Lean `String` elsewhere.
* JS numbers are modelled as `ℚ` where fractional values can occur, and as
  `Nat` where the surrounding code guarantees non-negative integers.
* Unbounded `while` loops are modelled with an explicit fuel parameter; a
  result of `none` for every fuel value witnesses non-termination.
* External services (the LanceDB table, the MCP transport, `JSON.parse`)
  are modelled by explicit state lists or by function parameters.
-/

/-- JS strings at character granularity (`src/chunker.ts` works by `.length`,
`.slice`, `+`). -/
abbrev Str := List Char

/-- JS `String.prototype.slice(a, b)`: negative indices count from the end,
indices are clamped to `[0, length]`, and an empty string results when the
normalised start is not before the normalised end. -/
def jsSlice (s : Str) (a b : Int) : Str :=
  let len : Int := (s.length : Int)
  let st : Int := if a < 0 then max (len + a) 0 else min a len
  let en : Int := if b < 0 then max (len + b) 0 else min b len
  (s.drop st.toNat).take (en - st).toNat

/-- JS `String.prototype.slice(a)` (one-argument form). -/
def jsSliceFrom (s : Str) (a : Int) : Str :=
  jsSlice s a (s.length : Int)

/-- Boolean string-prefix test used throughout the chunker proofs. -/
def lPrefix : Str → Str → Bool
  | [], _ => true
  | _ :: _, [] => false
  | a :: as, b :: bs => a == b && lPrefix as bs

/-- Boolean substring test, modelling JS `String.prototype.includes` for a
non-empty search string. -/
def containsSeq (sep : Str) : Str → Bool
  | [] => lPrefix sep []
  | c :: cs => lPrefix sep (c :: cs) || containsSeq sep cs

/-- Fuel-driven worker for `splitOnL`; the fuel is at least `rest.length + 1`
at every call site, which is enough for the scan to finish. -/
def splitOnGo (sep : Str) : Nat → Str → Str → List Str
  | 0, acc, rest => [acc ++ rest]
  | fuel + 1, acc, rest =>
    match rest with
    | [] => [acc]
    | c :: cs =>
      if lPrefix sep rest then acc :: splitOnGo sep fuel [] (rest.drop sep.length)
      else splitOnGo sep fuel (acc ++ [c]) cs

/-- JS `String.prototype.split(sep)` for a non-empty separator: leftmost,
non-overlapping occurrences. -/
def splitOnL (t sep : Str) : List Str :=
  splitOnGo sep (t.length + 1) [] t

/-- Re-attach the separator to every part except the last, embedding
`parts.map((part, i) => (i < parts.length - 1 ? part + sep : part))` from
`splitSegments` in `src/chunker.ts`. -/
def reattach : List Str → Str → List Str
  | [], _ => []
  | [p], _ => [p]
  | p :: q :: ps, sep => (p ++ sep) :: reattach (q :: ps) sep

/-- The paragraph separator `"\n\n"`. -/
def sepPara : Str := ['\n', '\n']

/-- The line separator `"\n"`. -/
def sepLine : Str := ['\n']

/-- The sentence separator `". "`. -/
def sepSentence : Str := ['.', ' ']

/-- Embeds `splitSegments` from `src/chunker.ts`: the first separator of the
hierarchy `"\n\n"` → `"\n"` → `". "` that occurs in the text is used; if none
occurs the whole text is a single segment. -/
def splitSegments (text : Str) : List Str :=
  if containsSeq sepPara text then reattach (splitOnL text sepPara) sepPara
  else if containsSeq sepLine text then reattach (splitOnL text sepLine) sepLine
  else if containsSeq sepSentence text then reattach (splitOnL text sepSentence) sepSentence
  else [text]

/-- The continuation marker `toolNamePrefix + ": ... "` (the
`continuationPrefix` constant of `mergeSegments` in `src/chunker.ts`). -/
def contMark (tnp : Str) : Str := tnp ++ (": ... ").toList

/-- Embeds the `while (remaining.length > maxChunkChars)` hard-split loop of
`mergeSegments` in `src/chunker.ts`, with fuel; `none` means the fuel ran out
with the loop guard still true.  Per iteration the code pushes
`remaining.slice(0, maxChunkChars)` and rewrites `remaining` to
`continuationPrefix + overlap + remaining.slice(maxChunkChars)`. -/
def hsLoop (pfxC : Str) (maxC ovlC : Nat) : Nat → Str → List Str → Option (List Str × Str)
  | 0, remaining, chunks =>
    if maxC < remaining.length then none else some (chunks, remaining)
  | fuel + 1, remaining, chunks =>
    if maxC < remaining.length then
      let piece := remaining.take maxC
      let ovl := if 0 < ovlC then jsSlice remaining ((maxC : Int) - (ovlC : Int)) (maxC : Int) else []
      hsLoop pfxC maxC ovlC fuel (pfxC ++ ovl ++ remaining.drop maxC) (chunks ++ [piece])
    else some (chunks, remaining)

/-- Embeds the `for (const segment of segments)` loop plus the final flush of
`mergeSegments` in `src/chunker.ts`.  State: the accumulated `chunks` and the
`current` buffer.  The empty conditional block of the source (the
`if (current.length > 0 && current !== continuationPrefix)` with only a
comment inside) has no effect and is not represented. -/
def mergeGo (pfxC : Str) (maxC ovlC : Nat) (fuel : Nat) : List Str → Str → List Str → Option (List Str)
  | [], current, chunks =>
    some (if 0 < current.length then chunks ++ [current] else chunks)
  | seg :: rest, current, chunks =>
    let fin : Bool := decide (0 < current.length) && decide (maxC < current.length + seg.length)
    let chunks1 := if fin then chunks ++ [current] else chunks
    let current1 :=
      if fin then pfxC ++ (if 0 < ovlC then jsSliceFrom current (-(ovlC : Int)) else [])
      else current
    if maxC < seg.length then
      match hsLoop pfxC maxC ovlC fuel (current1 ++ seg) chunks1 with
      | none => none
      | some (chunks2, current2) => mergeGo pfxC maxC ovlC fuel rest current2 chunks2
    else mergeGo pfxC maxC ovlC fuel rest (current1 ++ seg) chunks1

/-- Embeds `mergeSegments` from `src/chunker.ts` (fuel-indexed because of the
hard-split `while` loop). -/
def mergeSegments (fuel : Nat) (segments : List Str) (tnp : Str) (maxC ovlC : Nat) : Option (List Str) :=
  mergeGo (contMark tnp) maxC ovlC fuel segments [] []

/-- A chunk record as produced by `chunkText` (`src/chunker.ts`). -/
structure Chunk where
  index : Nat
  total : Nat
  text : Str
deriving DecidableEq

/-- Embeds `chunks.map((text, index) => ({ index, total, text }))` from
`chunkText` in `src/chunker.ts`. -/
def enumChunks (total : Nat) : Nat → List Str → List Chunk
  | _, [] => []
  | i, t :: ts => ⟨i, total, t⟩ :: enumChunks total (i + 1) ts

/-- Embeds `chunkText` from `src/chunker.ts`: fast path for
`maxChunkChars === 0 || text.length <= maxChunkChars`, otherwise split into
segments and greedily merge.  `none` means the hard-split loop did not finish
within `fuel` iterations. -/
def chunkText (fuel : Nat) (text : Str) (tnp : Str) (maxC ovlC : Nat) : Option (List Chunk) :=
  if maxC = 0 ∨ text.length ≤ maxC then some [⟨0, 1, text⟩]
  else
    match mergeSegments fuel (splitSegments text) tnp maxC ovlC with
    | none => none
    | some cs => some (enumChunks cs.length 0 cs)

example : chunkText 10 ("short").toList ("t").toList 100 10 = some [⟨0, 1, ("short").toList⟩] := by decide

/-- A row of the `mcp_tools` LanceDB table (`McpToolEntry` in
`src/vector-store.ts`). -/
structure McpToolEntry where
  tool_id : String
  server_name : String
  tool_name : String
  description : String
  parameters_json : String
  vector : List ℚ
deriving DecidableEq

/-- The vector store's visible state: the list of rows of the single logical
table, in insertion order. -/
abbrev StoreState := List McpToolEntry

/-- Embeds `McpToolVectorStore.upsertTool` (`src/vector-store.ts`): delete any
existing row with the same `tool_id`, then add the entry.  The single-quote
escaping of the source only protects the SQL filter string; the filter still
selects rows by `tool_id` equality, which is what is modelled here. -/
def upsertTool (store : StoreState) (entry : McpToolEntry) : StoreState :=
  (store.filter fun r => r.tool_id ≠ entry.tool_id) ++ [entry]

/-- Embeds `McpToolVectorStore.deleteToolChunks` (`src/vector-store.ts`):
delete all rows matching `(server_name, tool_name)`. -/
def deleteToolChunks (store : StoreState) (serverName toolName : String) : StoreState :=
  store.filter fun r => ¬(r.server_name = serverName ∧ r.tool_name = toolName)

/-- Embeds `McpToolVectorStore.addToolEntries` (`src/vector-store.ts`): batch
append without delete; no-op on empty input. -/
def addToolEntries (store : StoreState) (entries : List McpToolEntry) : StoreState :=
  if entries = [] then store else store ++ entries

/-- Embeds the per-tool store update of `indexServer`
(`src/indexer.ts`, lines 199-227): a single chunk goes through `upsertTool`
with `tool_id = "{server}::{tool}"`; multiple chunks go through
`deleteToolChunks` followed by `addToolEntries` with
`tool_id = "{server}::{tool}::chunk{i}"`.  The embedding vectors are supplied
by the `embed` parameter (the external embedding service). -/
def indexToolStep (store : StoreState) (serverName toolName description parametersJson : String)
    (chunkTexts : List String) (embed : String → List ℚ) : StoreState :=
  if chunkTexts.length = 1 then
    upsertTool store
      { tool_id := serverName ++ "::" ++ toolName
        server_name := serverName
        tool_name := toolName
        description := description
        parameters_json := parametersJson
        vector := embed (chunkTexts.headD "") }
  else
    addToolEntries (deleteToolChunks store serverName toolName)
      (chunkTexts.enum.map fun p =>
        { tool_id := serverName ++ "::" ++ toolName ++ "::chunk" ++ toString p.1
          server_name := serverName
          tool_name := toolName
          description := description
          parameters_json := parametersJson
          vector := embed p.2 })

/-- One row returned by the underlying LanceDB vector query in
`McpToolVectorStore.searchTools` (`src/vector-store.ts`); `distance` models
`row._distance`, which may be absent. -/
structure QueryRow where
  tool_id : String
  server_name : String
  tool_name : String
  description : String
  parameters_json : String
  vector : List ℚ
  distance : Option ℚ
deriving DecidableEq

/-- A search result `{entry, score}` (`SearchResult` in
`src/vector-store.ts`). -/
structure SearchResult where
  entry : McpToolEntry
  score : ℚ
deriving DecidableEq

/-- Embeds the score computation of `searchTools`
(`src/vector-store.ts`, lines 104-118): `distance = row._distance ?? 0` and
`score = 1 / (1 + distance)`. -/
def rowScore (row : QueryRow) : ℚ :=
  1 / (1 + row.distance.getD 0)

/-- Embeds the row-to-result mapping of `searchTools`
(`src/vector-store.ts`). -/
def rowToResult (row : QueryRow) : SearchResult :=
  { entry :=
      { tool_id := row.tool_id
        server_name := row.server_name
        tool_name := row.tool_name
        description := row.description
        parameters_json := row.parameters_json
        vector := row.vector }
    score := rowScore row }

/-- Embeds `searchTools` (`src/vector-store.ts`, lines 96-121) from the point
where the raw rows of `vectorSearch(vector).limit(topK)` are available: map
every row to a scored result and keep those with `score >= minScore`. -/
def searchTools (rows : List QueryRow) (minScore : ℚ) : List SearchResult :=
  (rows.map rowToResult).filter fun r => minScore ≤ r.score

/-- One connect attempt of `indexServer` (`src/indexer.ts`): the delay slept
before the attempt (`none` on the first attempt) and the timeout passed to
`client.connect`. -/
structure AttemptLog where
  delayBefore : Option ℚ
  timeout : ℚ
deriving DecidableEq

/-- Embeds the `for (let attempt = 0; attempt < maxAttempts; attempt++)` loop
of `indexServer` (`src/indexer.ts`, lines 159-270) restricted to its connect
phase: before attempt `a > 0` the code sleeps
`min(initialRetryDelay * 2 ** (a - 1), maxRetryDelay)`, then calls
`client.connect` with `timeout = serverCfg.timeout ?? indexer.connectTimeout`.
`connectOk a` tells whether attempt `a` connects; on success the loop body
returns, on failure the loop continues until the attempts are exhausted. -/
def indexServerGo (serverTimeout : Option ℚ) (cT iD mD : ℚ) (connectOk : Nat → Bool) :
    Nat → Nat → List AttemptLog → List AttemptLog
  | _, 0, acc => acc
  | attempt, rem + 1, acc =>
    let d : Option ℚ := if attempt = 0 then none else some (min (iD * 2 ^ (attempt - 1)) mD)
    let log : AttemptLog := ⟨d, serverTimeout.getD cT⟩
    if connectOk attempt then acc ++ [log]
    else indexServerGo serverTimeout cT iD mD connectOk (attempt + 1) rem (acc ++ [log])

/-- The connect attempts performed by one `indexServer` task
(`src/indexer.ts`): `maxAttempts = maxRetries + 1`. -/
def indexServerAttempts (serverTimeout : Option ℚ) (cT iD mD : ℚ) (maxRetries : Nat)
    (connectOk : Nat → Bool) : List AttemptLog :=
  indexServerGo serverTimeout cT iD mD connectOk 0 (maxRetries + 1) []

/-- The always-failing connect outcome (a server that is never reachable). -/
def neverConnects : Nat → Bool := fun _ => false

/-- The `indexer` entry of the raw configuration object as seen by
`parseConfig` (`src/mcp-client.ts`): each field is `some q` when the raw value
is a JS number (respectively boolean) and `none` otherwise. -/
structure IndexerRaw where
  connectTimeout : Option ℚ
  maxRetries : Option ℚ
  initialRetryDelay : Option ℚ
  maxRetryDelay : Option ℚ
  maxChunkChars : Option ℚ
  overlapChars : Option ℚ
  generateCliArtifacts : Option Bool
deriving DecidableEq

/-- The resolved `IndexerConfig` (`src/mcp-client.ts`). -/
structure IndexerResolved where
  connectTimeout : ℚ
  maxRetries : ℚ
  initialRetryDelay : ℚ
  maxRetryDelay : ℚ
  maxChunkChars : ℚ
  overlapChars : ℚ
  generateCliArtifacts : Bool
deriving DecidableEq

/-- Embeds the indexer-defaults block of `parseConfig`
(`src/mcp-client.ts`, lines 595-604): `maxRetries`, `maxChunkChars` and
`overlapChars` are wrapped in `Math.max(0, ·)`, the remaining numeric fields
are taken as given when present and defaulted otherwise. -/
def parseConfigIndexer (r : IndexerRaw) : IndexerResolved :=
  { connectTimeout := r.connectTimeout.getD 60000
    maxRetries := match r.maxRetries with | some q => max 0 q | none => 3
    initialRetryDelay := r.initialRetryDelay.getD 2000
    maxRetryDelay := r.maxRetryDelay.getD 30000
    maxChunkChars := match r.maxChunkChars with | some q => max 0 q | none => 500
    overlapChars := match r.overlapChars with | some q => max 0 q | none => 100
    generateCliArtifacts := r.generateCliArtifacts.getD false }

/-- Embeds `const rawLimit = typeof params.limit === "number" ? params.limit :
deps.cfg.topK` of `createMcpSearchTool.execute`
(`src/tools/mcp-search-tool.ts`, line 78): `paramsLimit` is `some q` when the
caller passed a number and `none` otherwise. -/
def mcpSearchRawLimit (paramsLimit : Option ℚ) (topK : ℚ) : ℚ :=
  paramsLimit.getD topK

/-- Embeds `const limit = Math.max(1, Math.min(20, rawLimit))`
(`src/tools/mcp-search-tool.ts`, line 79). -/
def mcpSearchLimit (paramsLimit : Option ℚ) (topK : ℚ) : ℚ :=
  max 1 (min 20 (mcpSearchRawLimit paramsLimit topK))

/-- Embeds `const fetchLimit = Math.min(60, limit * 3)`
(`src/tools/mcp-search-tool.ts`, line 100). -/
def mcpSearchFetchLimit (limit : ℚ) : ℚ :=
  min 60 (limit * 3)

/-- The deduplication key computed by `createMcpSearchTool.execute`
(`src/tools/mcp-search-tool.ts`, line 106): the joined string
`r.entry.server_name ++ "::" ++ r.entry.tool_name`. -/
def joinedKey (r : SearchResult) : String :=
  r.entry.server_name ++ "::" ++ r.entry.tool_name

/-- JS `Map.prototype.get` on an assoc-list model of a `Map` (insertion
order preserved). -/
def mapGet (m : List (String × SearchResult)) (k : String) : Option SearchResult :=
  (m.find? fun p => p.1 = k).map Prod.snd

/-- JS `Map.prototype.set` on the assoc-list model: replace in place when the
key exists, append otherwise. -/
def mapSet (m : List (String × SearchResult)) (k : String) (v : SearchResult) :
    List (String × SearchResult) :=
  if m.any fun p => p.1 = k then m.map fun p => if p.1 = k then (k, v) else p
  else m ++ [(k, v)]

/-- Embeds one iteration of the dedup loop of `createMcpSearchTool.execute`
(`src/tools/mcp-search-tool.ts`, lines 105-111): store `r` under its key when
the key is new or `r.score` strictly exceeds the stored score. -/
def dedupStep (seen : List (String × SearchResult)) (r : SearchResult) :
    List (String × SearchResult) :=
  match mapGet seen (joinedKey r) with
  | none => mapSet seen (joinedKey r) r
  | some existing => if existing.score < r.score then mapSet seen (joinedKey r) r else seen

/-- The `seen` map after the whole dedup loop. -/
def dedupFold (raw : List SearchResult) : List (String × SearchResult) :=
  raw.foldl dedupStep []

/-- Descending-score order used by `.sort((a, b) => b.score - a.score)`. -/
def scoreGe (a b : SearchResult) : Prop := b.score ≤ a.score

instance : DecidableRel scoreGe := fun a b => inferInstanceAs (Decidable (b.score ≤ a.score))

instance : IsTotal SearchResult scoreGe :=
  ⟨fun a b => (le_total b.score a.score).elim Or.inl Or.inr⟩

instance : IsTrans SearchResult scoreGe :=
  ⟨fun _ _ _ hab hbc => le_trans hbc hab⟩

/-- Embeds `[...seen.values()].sort((a, b) => b.score - a.score).slice(0, limit)`
of `createMcpSearchTool.execute` (`src/tools/mcp-search-tool.ts`,
lines 112-114); a stable descending sort is modelled by insertion sort. -/
def mcpSearchFinalize (raw : List SearchResult) (limit : Nat) : List SearchResult :=
  (((dedupFold raw).map Prod.snd).insertionSort scoreGe).take limit

/-- Modelled from the spec: `Map.set` keyed by the PAIR
`(server_name, tool_name)`, for comparison with the joined-string key the
code uses. -/
def mapSetP (m : List ((String × String) × SearchResult)) (k : String × String)
    (v : SearchResult) : List ((String × String) × SearchResult) :=
  if m.any fun p => p.1 = k then m.map fun p => if p.1 = k then (k, v) else p
  else m ++ [(k, v)]

/-- Modelled from the spec: one collapse step keyed by the pair
`(server_name, tool_name)` keeping the entry with maximum score. -/
def specDedupStepPair (seen : List ((String × String) × SearchResult)) (r : SearchResult) :
    List ((String × String) × SearchResult) :=
  let k := (r.entry.server_name, r.entry.tool_name)
  match (seen.find? fun p => p.1 = k).map Prod.snd with
  | none => mapSetP seen k r
  | some existing => if existing.score < r.score then mapSetP seen k r else seen

/-- Modelled from the spec sentence of C6: collapse the list by the key
`(server_name, tool_name)` keeping the entry with maximum score per key, sort
the survivors in descending order of score, truncate to the limit. -/
def specSearchDedupByPair (raw : List SearchResult) (limit : Nat) : List SearchResult :=
  (((raw.foldl specDedupStepPair []).map Prod.snd).insertionSort scoreGe).take limit

/-- A JSON value as returned by `JSON.parse`. -/
inductive Json where
  | null : Json
  | bool (b : Bool) : Json
  | num (q : ℚ) : Json
  | str (s : String) : Json
  | arr (elems : List Json) : Json
  | obj (members : List (String × Json)) : Json

/-- The character `{` (written by code point to keep string literals free of
braces). -/
def braceOpen : Char := Char.ofNat 123

/-- The character `}`. -/
def braceClose : Char := Char.ofNat 125

/-- The string `"{}"`. -/
def jsObjLit : String := "\x7b\x7d"

/-- JSON insignificant whitespace. -/
def jsonWs (c : Char) : Bool :=
  c == ' ' || c == '\t' || c == '\n' || c == '\r'

/-- Decodes one escape character of a JSON string literal (the `\uXXXX` form
is not part of this subset). -/
def jsonEscape (e : Char) : Option Char :=
  if e == '"' then some '"'
  else if e == '\\' then some '\\'
  else if e == '/' then some '/'
  else if e == 'n' then some '\n'
  else if e == 't' then some '\t'
  else if e == 'r' then some '\r'
  else if e == 'b' then some (Char.ofNat 8)
  else if e == 'f' then some (Char.ofNat 12)
  else none

/-- Parses the body of a JSON string literal after the opening quote,
returning the content and the rest after the closing quote. -/
def pStringBody : Str → Option (Str × Str)
  | [] => none
  | '\\' :: [] => none
  | '\\' :: e :: cs =>
    (jsonEscape e).bind fun d =>
      (pStringBody cs).map fun p => (d :: p.1, p.2)
  | c :: cs =>
    if c == '"' then some ([], cs)
    else (pStringBody cs).map fun p => (c :: p.1, p.2)

/-- Digit run to a natural number. -/
def digitsToNat (ds : Str) : Nat :=
  ds.foldl (fun n c => n * 10 + (c.toNat - 48)) 0

/-- Parses a JSON number (integer or decimal; exponent notation is not part
of this subset). -/
def pNumber (s : Str) : Option (ℚ × Str) :=
  let neg : Bool := match s with | '-' :: _ => true | _ => false
  let s1 := if neg then s.drop 1 else s
  let ds := s1.takeWhile Char.isDigit
  let r1 := s1.dropWhile Char.isDigit
  if ds.isEmpty then none
  else
    let ipart : ℚ := (digitsToNat ds : ℚ)
    match r1 with
    | '.' :: r2 =>
      let fs := r2.takeWhile Char.isDigit
      let r3 := r2.dropWhile Char.isDigit
      if fs.isEmpty then none
      else
        let v : ℚ := ipart + (digitsToNat fs : ℚ) / ((10 : ℚ) ^ fs.length)
        some (if neg then -v else v, r3)
    | _ => some (if neg then -ipart else ipart, r1)

mutual

/-- Fuel-indexed recursive-descent parser for one JSON value; the concrete
model of `JSON.parse` used to instantiate the abstract `parse` parameter of
`mcpCallExecute` at concrete inputs. -/
def pValue : Nat → Str → Option (Json × Str)
  | 0, _ => none
  | fuel + 1, s =>
    match s.dropWhile jsonWs with
    | [] => none
    | c :: cs =>
      if c == 'n' then
        if lPrefix ("ull").toList cs then some (Json.null, cs.drop 3) else none
      else if c == 't' then
        if lPrefix ("rue").toList cs then some (Json.bool true, cs.drop 3) else none
      else if c == 'f' then
        if lPrefix ("alse").toList cs then some (Json.bool false, cs.drop 4) else none
      else if c == '"' then
        (pStringBody cs).map fun p => (Json.str (String.mk p.1), p.2)
      else if c == braceOpen then
        match cs.dropWhile jsonWs with
        | [] => none
        | c2 :: cs2 =>
          if c2 == braceClose then some (Json.obj [], cs2)
          else (pMembers fuel (c2 :: cs2)).map fun p => (Json.obj p.1, p.2)
      else if c == '[' then
        match cs.dropWhile jsonWs with
        | [] => none
        | c2 :: cs2 =>
          if c2 == ']' then some (Json.arr [], cs2)
          else (pElems fuel (c2 :: cs2)).map fun p => (Json.arr p.1, p.2)
      else if c == '-' || c.isDigit then (pNumber (c :: cs)).map fun p => (Json.num p.1, p.2)
      else none

/-- Parses a non-empty `value (, value)* ]` tail of a JSON array. -/
def pElems : Nat → Str → Option (List Json × Str)
  | 0, _ => none
  | fuel + 1, s =>
    match pValue fuel s with
    | none => none
    | some (v, rest) =>
      match rest.dropWhile jsonWs with
      | ',' :: r2 => (pElems fuel r2).map fun p => (v :: p.1, p.2)
      | ']' :: r2 => some ([v], r2)
      | _ => none

/-- Parses a non-empty `"key": value (, ...)* }` tail of a JSON object. -/
def pMembers : Nat → Str → Option (List (String × Json) × Str)
  | 0, _ => none
  | fuel + 1, s =>
    match s.dropWhile jsonWs with
    | [] => none
    | c :: cs =>
      if c == '"' then
        match pStringBody cs with
        | none => none
        | some (k, r1) =>
          match r1.dropWhile jsonWs with
          | ':' :: r3 =>
            match pValue fuel r3 with
            | none => none
            | some (v, r4) =>
              match r4.dropWhile jsonWs with
              | [] => none
              | c2 :: r6 =>
                if c2 == ',' then
                  (pMembers fuel r6).map fun p => ((String.mk k, v) :: p.1, p.2)
                else if c2 == braceClose then some ([(String.mk k, v)], r6)
                else none
          | _ => none
      else none

end

/-- A concrete model of `JSON.parse`: parse one value and require only
trailing whitespace after it. -/
def jsonParse (s : String) : Option Json :=
  match pValue (2 * s.length + 2) s.data with
  | none => none
  | some (v, rest) => if (rest.dropWhile jsonWs).isEmpty then some v else none

/-- Whether a parse outcome is a JSON object (`typeof parsed === "object" &&
parsed !== null && !Array.isArray(parsed)` on a `JSON.parse` result). -/
def isObjOpt : Option Json → Bool
  | some (Json.obj _) => true
  | _ => false

/-- A server descriptor as returned by `registry.resolveServer`; only the
name is observed by `createMcpCallTool.execute`. -/
structure SrvCfg where
  name : String
deriving DecidableEq

/-- Side effects of `createMcpCallTool.execute` in source order: registry
lookup, then (sdk backend) connect, tool call and the `finally` disconnect. -/
inductive CallEffect where
  | resolveOwner (tool : String) : CallEffect
  | connect (server : String) : CallEffect
  | callTool (server tool : String) : CallEffect
  | disconnect (server : String) : CallEffect
deriving DecidableEq

/-- The outcome of `createMcpCallTool.execute` as far as the claims observe
it. -/
inductive CallOutcome where
  | errMissingToolName : CallOutcome
  | errInvalidParamsJson : CallOutcome
  | errUnknownTool (tool : String) : CallOutcome
  | callReturned (server tool : String) : CallOutcome
deriving DecidableEq

/-- JS `String.prototype.trim`: strip leading and trailing whitespace
(computable character-list model). -/
def jsTrim (s : String) : String :=
  String.mk (((s.data.dropWhile Char.isWhitespace).reverse.dropWhile Char.isWhitespace).reverse)

/-- Embeds the `params_json` normalisation of `createMcpCallTool.execute`
(`src/tools/mcp-call-tool.ts`, lines 127-131): `rawJson` is the trimmed
string when a string was passed and `"{}"` otherwise, and `JSON.parse` is
applied to `rawJson || "{}"` (the empty string is replaced by `"{}"`). -/
def normParamsJson (params_json : Option String) : String :=
  let rawJson := (params_json.map jsTrim).getD jsObjLit
  if rawJson = "" then jsObjLit else rawJson

/-- Embeds `createMcpCallTool.execute` (`src/tools/mcp-call-tool.ts`,
lines 116-229) over an abstract registry and an abstract `JSON.parse`, with
`callExecution` unset (the sdk backend) and an abstract transport whose calls
are recorded as effects.  The validation steps return their error cards
before any effect happens, exactly as in the source. -/
def mcpCallExecute (resolveServer : String → Option SrvCfg)
    (parse : String → Option Json) (tool_name params_json : Option String) :
    CallOutcome × List CallEffect :=
  let toolName := (tool_name.map jsTrim).getD ""
  if toolName = "" then (CallOutcome.errMissingToolName, [])
  else
    match parse (normParamsJson params_json) with
    | some (Json.obj _) =>
      match resolveServer toolName with
      | none => (CallOutcome.errUnknownTool toolName, [CallEffect.resolveOwner toolName])
      | some srv =>
        (CallOutcome.callReturned srv.name toolName,
          [CallEffect.resolveOwner toolName, CallEffect.connect srv.name,
            CallEffect.callTool srv.name toolName, CallEffect.disconnect srv.name])
    | _ => (CallOutcome.errInvalidParamsJson, [])

/-- The delay/timeout schedule of attempt `a` of `indexServer`
(`src/indexer.ts`, lines 163-177) written in closed form. -/
def attemptLogAt (serverTimeout : Option ℚ) (cT iD mD : ℚ) (a : Nat) : AttemptLog :=
  ⟨if a = 0 then none else some (min (iD * 2 ^ (a - 1)) mD), serverTimeout.getD cT⟩

/-- A stored chunk row left behind by an earlier two-chunk run (concrete
instance for C1). -/
def cexChunkRow0 : McpToolEntry :=
  { tool_id := "s::t::chunk0", server_name := "s", tool_name := "t",
    description := "d", parameters_json := "p", vector := [] }

/-- The second stored chunk row of the earlier two-chunk run. -/
def cexChunkRow1 : McpToolEntry :=
  { tool_id := "s::t::chunk1", server_name := "s", tool_name := "t",
    description := "d", parameters_json := "p", vector := [] }

/-- Store contents before the re-index of C1's failing input. -/
def cexStore : StoreState := [cexChunkRow0, cexChunkRow1]

/-- A trivial embedding function for concrete instances. -/
def zeroEmbed : String → List ℚ := fun _ => []

/-- Builds a single-chunk search result row for concrete instances. -/
def searchResultOf (srv tool : String) (score : ℚ) : SearchResult :=
  { entry := { tool_id := srv ++ "::" ++ tool, server_name := srv, tool_name := tool,
               description := "", parameters_json := "", vector := [] }
    score := score }

/-- Joined-key collision instance: server `a::b`, tool `c`. -/
def cexColA : SearchResult := searchResultOf "a::b" "c" 5

/-- Joined-key collision instance: server `a`, tool `b::c` (same joined key as
`cexColA`, different pair). -/
def cexColB : SearchResult := searchResultOf "a" "b::c" 3

/-- Concrete dedup input: low-scored chunk of `fs::read_file`. -/
def wRes1 : SearchResult := searchResultOf "fs" "read_file" 85

/-- Concrete dedup input: high-scored chunk of `fs::read_file`. -/
def wRes2 : SearchResult := searchResultOf "fs" "read_file" 92

/-- Concrete dedup input: `git::git_log`. -/
def wRes3 : SearchResult := searchResultOf "git" "git_log" 80

/-- A query row with no `_distance` value (concrete instance for C10). -/
def cexRow : QueryRow :=
  { tool_id := "s::t", server_name := "s", tool_name := "t",
    description := "", parameters_json := "", vector := [], distance := none }

/-- Concrete chunker input text for the C4 witness: three newline-separated
20-character lines. -/
def c4text : Str :=
  ("aaaaaaaaaaaaaaaaaaaa\nbbbbbbbbbbbbbbbbbbbb\ncccccccccccccccccccc").toList

/-- Tool name of the C4 witness. -/
def c4tool : Str := ("my_tool").toList

/-- The chunk list `chunkText` produces on `c4text` with `maxChunkChars = 25`,
`overlapChars = 5`. -/
def c4chunks : List Chunk :=
  [⟨0, 3, ("aaaaaaaaaaaaaaaaaaaa\n").toList⟩,
   ⟨1, 3, ("my_tool: ... aaaa\nbbbbbbbbbbbbbbbbbbbb\n").toList⟩,
   ⟨2, 3, ("my_tool: ... bbbb\ncccccccccccccccccccc").toList⟩]



/-! ## Theorems -/

/-- C1 (code_bug evidence): re-indexing a capability whose earlier run stored
two chunk rows and whose current run yields exactly one chunk goes through
`upsertTool`, which deletes only the exact `tool_id` `"s::t"`; the orphan rows
`"s::t::chunk0"` and `"s::t::chunk1"` survive, so the store does not contain
exactly the current chunk set for `(s, t)`. -/
theorem upsert_single_chunk_leaves_orphans :
    (indexToolStep cexStore "s" "t" "d" "p" ["c0"] zeroEmbed).map McpToolEntry.tool_id
        = ["s::t::chunk0", "s::t::chunk1", "s::t"]
    ∧ ((indexToolStep cexStore "s" "t" "d" "p" ["c0"] zeroEmbed).filter
          (fun r => r.server_name == "s" && r.tool_name == "t")).map McpToolEntry.tool_id
        ≠ ["s::t"] := by
  decide

/-- C2 (counterexample): with a server-specific timeout of 100000 ms and an
indexer `connectTimeout` of 60000 ms, the connect call receives 100000 ms,
which is not the smaller of the two values as the claim states. -/
theorem connect_timeout_not_min :
    (indexServerAttempts (some 100000) 60000 2000 30000 0 neverConnects).map AttemptLog.timeout
        = [100000]
    ∧ ¬((100000 : ℚ) = min 100000 60000) := by
  decide

/-- Every attempt logged by `indexServerGo` carries the timeout
`serverTimeout ?? connectTimeout`. -/
theorem indexServerGo_timeout (sT : Option ℚ) (cT iD mD : ℚ) (ok : Nat → Bool) :
    ∀ (rem attempt : Nat) (acc : List AttemptLog),
      (∀ y ∈ acc, y.timeout = sT.getD cT) →
      ∀ x ∈ indexServerGo sT cT iD mD ok attempt rem acc, x.timeout = sT.getD cT := by
  intro rem
  induction rem with
  | zero => intro attempt acc hacc x hx; exact hacc x hx
  | succ n ih =>
    intro attempt acc hacc x hx
    rw [indexServerGo] at hx
    by_cases hok : ok attempt = true
    · rw [if_pos hok] at hx
      rcases List.mem_append.1 hx with h | h
      · exact hacc x h
      · rcases List.mem_singleton.1 h with rfl; rfl
    · rw [if_neg hok] at hx
      refine ih (attempt + 1) _ ?_ x hx
      intro y hy
      rcases List.mem_append.1 hy with h | h
      · exact hacc y h
      · rcases List.mem_singleton.1 h with rfl; rfl

/-- C2 (amended): the timeout passed to `client.connect` on every attempt is
the server-specific `timeout` when the descriptor has one — even when it is
larger than the indexer `connectTimeout` — and the indexer `connectTimeout`
otherwise (`serverCfg.timeout ?? indexer.connectTimeout`,
`src/indexer.ts` line 176). -/
theorem connect_timeout_is_server_override (sT : Option ℚ) (cT iD mD : ℚ)
    (mr : Nat) (ok : Nat → Bool) (x : AttemptLog)
    (hx : x ∈ indexServerAttempts sT cT iD mD mr ok) :
    x.timeout = sT.getD cT :=
  indexServerGo_timeout sT cT iD mD ok (mr + 1) 0 [] (by intro y hy; cases hy) x hx

/-- C2 witness: the single attempt against a server with timeout 100000 under
connectTimeout 60000 indeed uses 100000. -/
theorem connect_timeout_is_server_override_witness :
    (⟨none, (100000 : ℚ)⟩ : AttemptLog)
        ∈ indexServerAttempts (some 100000) 60000 2000 30000 0 neverConnects
    ∧ (⟨none, (100000 : ℚ)⟩ : AttemptLog).timeout = (some (100000 : ℚ)).getD 60000 :=
  ⟨by decide,
    connect_timeout_is_server_override (some 100000) 60000 2000 30000 0 neverConnects _ (by decide)⟩

/-- C5 (counterexample): a caller-supplied `indexer.connectTimeout` of `-1`
is passed through un-clamped by `parseConfig`, so not every numerical field
of the resolved indexer configuration is non-negative. -/
theorem indexer_config_negative_passthrough :
    (parseConfigIndexer ⟨some (-1), none, none, none, none, none, none⟩).connectTimeout = -1
    ∧ ¬(0 ≤ (parseConfigIndexer ⟨some (-1), none, none, none, none, none, none⟩).connectTimeout) := by
  decide

/-- C5 (amended): `parseConfig` clamps `maxRetries`, `maxChunkChars` and
`overlapChars` to non-negative values, while `connectTimeout`,
`initialRetryDelay` and `maxRetryDelay` are taken as given when numeric
(defaulted otherwise), so caller-supplied negative values pass through for
those three fields. -/
theorem indexer_config_clamping (r : IndexerRaw) :
    0 ≤ (parseConfigIndexer r).maxRetries
    ∧ 0 ≤ (parseConfigIndexer r).maxChunkChars
    ∧ 0 ≤ (parseConfigIndexer r).overlapChars
    ∧ (parseConfigIndexer r).connectTimeout = r.connectTimeout.getD 60000
    ∧ (parseConfigIndexer r).initialRetryDelay = r.initialRetryDelay.getD 2000
    ∧ (parseConfigIndexer r).maxRetryDelay = r.maxRetryDelay.getD 30000 := by
  refine ⟨?_, ?_, ?_, rfl, rfl, rfl⟩
  · cases hq : r.maxRetries with
    | none => simp only [parseConfigIndexer, hq]; norm_num
    | some q => simp only [parseConfigIndexer, hq]; exact le_max_left 0 q
  · cases hq : r.maxChunkChars with
    | none => simp only [parseConfigIndexer, hq]; norm_num
    | some q => simp only [parseConfigIndexer, hq]; exact le_max_left 0 q
  · cases hq : r.overlapChars with
    | none => simp only [parseConfigIndexer, hq]; norm_num
    | some q => simp only [parseConfigIndexer, hq]; exact le_max_left 0 q

/-- C9: the effective search limit is the raw limit (the caller's numeric
`limit`, defaulting to the configured `topK`) clamped to `[1, 20]`, and the
fetch limit requested from the store is `min(60, limit * 3)`, which always
equals `3 * limit` because the clamped limit is at most 20. -/
theorem mcp_search_limit_clamp (paramsLimit : Option ℚ) (topK : ℚ) :
    1 ≤ mcpSearchLimit paramsLimit topK
    ∧ mcpSearchLimit paramsLimit topK ≤ 20
    ∧ mcpSearchLimit paramsLimit topK = max 1 (min 20 (mcpSearchRawLimit paramsLimit topK))
    ∧ mcpSearchRawLimit none topK = topK
    ∧ mcpSearchFetchLimit (mcpSearchLimit paramsLimit topK)
        = min 60 (mcpSearchLimit paramsLimit topK * 3)
    ∧ mcpSearchFetchLimit (mcpSearchLimit paramsLimit topK)
        = 3 * mcpSearchLimit paramsLimit topK := by
  have h20 : mcpSearchLimit paramsLimit topK ≤ 20 := by
    unfold mcpSearchLimit
    exact max_le (by norm_num) (min_le_left _ _)
  refine ⟨le_max_left _ _, h20, rfl, rfl, rfl, ?_⟩
  unfold mcpSearchFetchLimit
  rw [min_eq_right (by linarith), mul_comm]

/-- C10 (counterexample): a row with no `_distance` value receives score 1,
yet a `minScore` filter at threshold 2 removes it, so such a row does not
pass every `minScore` filter as the claim states. -/
theorem missing_distance_filtered_by_high_minscore :
    rowScore cexRow = 1 ∧ searchTools [cexRow] 2 = [] := by
  have h1 : rowScore cexRow = 1 := by
    simp [rowScore, cexRow]
  refine ⟨h1, ?_⟩
  have h2 : ¬((2 : ℚ) ≤ (rowToResult cexRow).score) := by
    have : (rowToResult cexRow).score = 1 := h1
    rw [this]; norm_num
  simp [searchTools, h2]

/-- C10 (amended): `searchTools` scores every row as `1 / (1 + d)` with
`d = row._distance ?? 0`; a row with no distance value receives score 1,
which is the maximum possible score for any non-negative distance, and
passes every `minScore` filter whose threshold is at most 1. -/
theorem search_score_formula (rows : List QueryRow) (minScore : ℚ) (row : QueryRow)
    (hrow : row ∈ rows) :
    (∀ d : ℚ, row.distance = some d → rowScore row = 1 / (1 + d))
    ∧ (row.distance = none → rowScore row = 1)
    ∧ (∀ d : ℚ, 0 ≤ d → 1 / (1 + d) ≤ 1)
    ∧ (row.distance = none → minScore ≤ 1 → rowToResult row ∈ searchTools rows minScore) := by
  refine ⟨?_, ?_, ?_, ?_⟩
  · intro d hd; simp [rowScore, hd]
  · intro hd; simp [rowScore, hd]
  · intro d hd
    rw [div_le_one (by linarith)]
    linarith
  · intro hd hms
    have hscore : (rowToResult row).score = 1 := by simp [rowToResult, rowScore, hd]
    refine List.mem_filter.2 ⟨List.mem_map_of_mem rowToResult hrow, ?_⟩
    rw [decide_eq_true_iff, hscore]
    exact hms

/-- C10 witness: the distance-free row scores 1 and survives the default
`minScore = 0.3` filter. -/
theorem search_score_formula_witness :
    cexRow ∈ [cexRow]
    ∧ rowScore cexRow = 1
    ∧ rowToResult cexRow ∈ searchTools [cexRow] (3 / 10) :=
  ⟨by decide,
    (search_score_formula [cexRow] (3 / 10) cexRow (by decide)).2.1 rfl,
    (search_score_formula [cexRow] (3 / 10) cexRow (by decide)).2.2.2 rfl (by norm_num)⟩

/-- When every connect attempt fails, `indexServerGo` appends one attempt log
per remaining iteration, with the closed-form schedule `attemptLogAt`. -/
theorem indexServerGo_all_fail (sT : Option ℚ) (cT iD mD : ℚ) (ok : Nat → Bool)
    (hok : ∀ a, ok a = false) :
    ∀ (rem attempt : Nat) (acc : List AttemptLog),
      indexServerGo sT cT iD mD ok attempt rem acc
        = acc ++ (List.range' attempt rem).map (attemptLogAt sT cT iD mD) := by
  intro rem
  induction rem with
  | zero => intro attempt acc; simp [indexServerGo]
  | succ n ih =>
    intro attempt acc
    rw [indexServerGo, if_neg (by rw [hok attempt]; simp)]
    rw [ih, List.append_assoc, List.range'_succ, List.map_cons]
    rfl

/-- C8: when every connect attempt of a per-server task fails without
cancellation, exactly `maxRetries + 1` connect attempts are made, with no
delay before attempt 0 and a delay of
`min(initialRetryDelay * 2 ^ (a - 1), maxRetryDelay)` before every later
attempt `a` — the trace is exactly `attemptLogAt` over `0 .. maxRetries`. -/
theorem index_server_retry_schedule (sT : Option ℚ) (cT iD mD : ℚ) (mr : Nat)
    (ok : Nat → Bool) (hok : ∀ a, ok a = false) :
    indexServerAttempts sT cT iD mD mr ok
        = (List.range (mr + 1)).map (attemptLogAt sT cT iD mD)
    ∧ (indexServerAttempts sT cT iD mD mr ok).length = mr + 1 := by
  have h := indexServerGo_all_fail sT cT iD mD ok hok (mr + 1) 0 []
  rw [indexServerAttempts, h, ← List.range_eq_range']
  simp

/-- C8 witness: with `maxRetries = 2`, `initialRetryDelay = 2000`,
`maxRetryDelay = 30000` and a server that never connects, the task performs
exactly three attempts with delays 2000 ms and 4000 ms before attempts 1
and 2. -/
theorem index_server_retry_schedule_witness :
    (∀ a, neverConnects a = false)
    ∧ indexServerAttempts none 60000 2000 30000 2 neverConnects
        = [⟨none, 60000⟩, ⟨some 2000, 60000⟩, ⟨some 4000, 60000⟩] := by
  refine ⟨fun _ => rfl, ?_⟩
  rw [(index_server_retry_schedule none 60000 2000 30000 2 neverConnects (fun _ => rfl)).1]
  have h1 : min ((2000 : ℚ) * 2 ^ (1 - 1)) 30000 = 2000 := by norm_num
  have h2 : min ((2000 : ℚ) * 2 ^ (2 - 1)) 30000 = 4000 := by norm_num
  simp only [List.range_succ, List.range_zero, List.nil_append, List.cons_append,
    List.map_cons, List.map_nil, List.map_append, attemptLogAt]
  norm_num

/-- C7 (counterexample): the whitespace-only string `""` does not parse to a
JSON object (`JSON.parse("")` throws), yet `mcp_call` accepts it — the empty
trimmed string is replaced by `"{}"` before parsing — and proceeds to resolve
the server, refuting the claimed if-and-only-if. -/
theorem mcp_call_empty_string_accepted :
    isObjOpt (jsonParse "") = false
    ∧ mcpCallExecute (fun _ => none) jsonParse (some "t") (some "")
        = (CallOutcome.errUnknownTool "t", [CallEffect.resolveOwner "t"]) := by
  exact ⟨rfl, rfl⟩

/-- C7 (amended): for a valid `tool_name`, the `params_json` string is
accepted exactly when its trimmed form — with the empty string replaced by
`"{}"` — parses to a JSON object (not an array, not null); otherwise the
operation returns the invalid-`params_json` error card before resolving a
server or opening a transport session (empty effect list), and on
acceptance the first effect is the registry lookup. -/
theorem mcp_call_params_acceptance (resolve : String → Option SrvCfg)
    (parse : String → Option Json) (tn pj : String) (htn : jsTrim tn ≠ "") :
    (isObjOpt (parse (normParamsJson (some pj))) = false →
      mcpCallExecute resolve parse (some tn) (some pj)
        = (CallOutcome.errInvalidParamsJson, []))
    ∧ (isObjOpt (parse (normParamsJson (some pj))) = true →
        (mcpCallExecute resolve parse (some tn) (some pj)).1 ≠ CallOutcome.errInvalidParamsJson
        ∧ (mcpCallExecute resolve parse (some tn) (some pj)).2.head?
            = some (CallEffect.resolveOwner (jsTrim tn))) := by
  have hred : mcpCallExecute resolve parse (some tn) (some pj)
      = (if jsTrim tn = "" then (CallOutcome.errMissingToolName, [])
        else
          match parse (normParamsJson (some pj)) with
          | some (Json.obj _) =>
            match resolve (jsTrim tn) with
            | none => (CallOutcome.errUnknownTool (jsTrim tn), [CallEffect.resolveOwner (jsTrim tn)])
            | some srv =>
              (CallOutcome.callReturned srv.name (jsTrim tn),
                [CallEffect.resolveOwner (jsTrim tn), CallEffect.connect srv.name,
                  CallEffect.callTool srv.name (jsTrim tn), CallEffect.disconnect srv.name])
          | _ => (CallOutcome.errInvalidParamsJson, [])) := rfl
  rw [hred, if_neg htn]
  constructor
  · intro hfalse
    cases hp : parse (normParamsJson (some pj)) with
    | none => rfl
    | some v =>
      cases v with
      | obj members => rw [hp] at hfalse; simp [isObjOpt] at hfalse
      | null => rfl
      | bool b => rfl
      | num q => rfl
      | str s => rfl
      | arr elems => rfl
  · intro htrue
    cases hp : parse (normParamsJson (some pj)) with
    | none => rw [hp] at htrue; simp [isObjOpt] at htrue
    | some v =>
      cases v with
      | obj members =>
        cases hr : resolve (jsTrim tn) with
        | none => exact ⟨by simp, rfl⟩
        | some srv => exact ⟨by simp, rfl⟩
      | null => rw [hp] at htrue; simp [isObjOpt] at htrue
      | bool b => rw [hp] at htrue; simp [isObjOpt] at htrue
      | num q => rw [hp] at htrue; simp [isObjOpt] at htrue
      | str s => rw [hp] at htrue; simp [isObjOpt] at htrue
      | arr elems => rw [hp] at htrue; simp [isObjOpt] at htrue

/-- C7 witness: `params_json = "[]"` parses to an array, so the call is
rejected with the invalid-`params_json` card and no effect happens. -/
theorem mcp_call_params_acceptance_witness :
    jsTrim "t" ≠ ""
    ∧ mcpCallExecute (fun _ => none) jsonParse (some "t") (some "[]")
        = (CallOutcome.errInvalidParamsJson, []) :=
  ⟨by decide,
    (mcp_call_params_acceptance (fun _ => none) jsonParse "t" "[]" (by decide)).1 rfl⟩

/-- A string is a prefix of itself extended by anything. -/
theorem lPrefix_append (p t : Str) : lPrefix p (p ++ t) = true := by
  induction p with
  | nil => rfl
  | cons a as ih => simp [lPrefix, ih]

/-- Prefixes survive extension on the right. -/
theorem lPrefix_extend {p s : Str} (h : lPrefix p s = true) (t : Str) :
    lPrefix p (s ++ t) = true := by
  induction p generalizing s with
  | nil => rfl
  | cons a as ih =>
    cases s with
    | nil => simp [lPrefix] at h
    | cons b bs =>
      simp [lPrefix] at h ⊢
      exact ⟨h.1, ih h.2⟩

/-- A prefix is no longer than the string. -/
theorem lPrefix_length {p s : Str} (h : lPrefix p s = true) : p.length ≤ s.length := by
  induction p generalizing s with
  | nil => simp
  | cons a as ih =>
    cases s with
    | nil => simp [lPrefix] at h
    | cons b bs =>
      simp only [lPrefix, Bool.and_eq_true] at h
      have := ih h.2
      simp only [List.length_cons]
      omega

/-- Prefixes survive truncation beyond their length. -/
theorem lPrefix_take {p s : Str} (h : lPrefix p s = true) :
    ∀ {n : Nat}, p.length ≤ n → lPrefix p (s.take n) = true := by
  induction p generalizing s with
  | nil => intro n _; rfl
  | cons a as ih =>
    intro n hn
    cases s with
    | nil => simp [lPrefix] at h
    | cons b bs =>
      cases n with
      | zero => simp only [List.length_cons] at hn; omega
      | succ m =>
        simp only [lPrefix, Bool.and_eq_true, beq_iff_eq] at h
        rw [List.take_succ_cons]
        simp only [lPrefix, Bool.and_eq_true, beq_iff_eq]
        refine ⟨h.1, ih h.2 ?_⟩
        simp only [List.length_cons] at hn
        omega

/-- Appending one element preserves an all-but-first property when the
element satisfies it whenever it will not be the first. -/
theorem dropOne_snoc {P : Str → Prop} :
    ∀ (cs : List Str) (c : Str),
      (∀ x ∈ cs.drop 1, P x) → (cs ≠ [] → P c) → ∀ x ∈ (cs ++ [c]).drop 1, P x := by
  intro cs c h1 h2 x hx
  cases cs with
  | nil => simp at hx
  | cons a l =>
    rw [List.cons_append, List.drop_one, List.tail_cons] at hx
    rcases List.mem_append.1 hx with hxl | hxc
    · exact h1 x (by simpa using hxl)
    · rw [List.mem_singleton.1 hxc]
      exact h2 (by simp)

/-- When the continuation marker is at least as long as `maxChunkChars`, the
hard-split loop never makes progress: the rewritten `remaining` is never
shorter than the marker, so the loop guard stays true and every fuel value is
exhausted (this is the non-termination of the source's `while` loop). -/
theorem hsLoop_none_of_big_marker (pfxC : Str) (maxC ovlC : Nat) (hp : maxC ≤ pfxC.length) :
    ∀ (fuel : Nat) (remaining : Str) (chunks : List Str), maxC < remaining.length →
      hsLoop pfxC maxC ovlC fuel remaining chunks = none := by
  intro fuel
  induction fuel with
  | zero => intro rem chs h; rw [hsLoop, if_pos h]
  | succ n ih =>
    intro rem chs h
    rw [hsLoop, if_pos h]
    refine ih _ _ ?_
    rw [List.length_append, List.length_append, List.length_drop]
    omega

/-- C3 (code_bug evidence): with `maxChunkChars = 5`, `overlapChars = 0`,
tool name `"T"` (continuation marker `"T: ... "` of length 7) and the
separator-free six-character text `"aaaaaa"`, the hard-split loop of
`chunkText` diverges — for every fuel bound the loop guard is still true, so
the source's unbounded `while` loop never terminates and `chunkText` never
returns, contradicting the claimed termination for every configuration with
`maxChunkChars > 0`. -/
theorem chunkText_hard_split_diverges :
    ∀ fuel : Nat, chunkText fuel ("aaaaaa").toList ("T").toList 5 0 = none := by
  intro fuel
  have hsplit : splitSegments ("aaaaaa").toList = [("aaaaaa").toList] := by decide
  have hfast : ¬((5 : Nat) = 0 ∨ (("aaaaaa").toList).length ≤ 5) := by decide
  rw [chunkText, if_neg hfast, mergeSegments, hsplit]
  have hstep : mergeGo (contMark ("T").toList) 5 0 fuel [("aaaaaa").toList] [] []
      = (match hsLoop (contMark ("T").toList) 5 0 fuel (("aaaaaa").toList) [] with
         | none => none
         | some (chunks2, current2) =>
             mergeGo (contMark ("T").toList) 5 0 fuel [] current2 chunks2) := rfl
  rw [hstep,
    hsLoop_none_of_big_marker (contMark ("T").toList) 5 0 (by decide) fuel
      (("aaaaaa").toList) [] (by decide)]

/-- `enumChunks` preserves length. -/
theorem enumChunks_length : ∀ (cs : List Str) (total i : Nat),
    (enumChunks total i cs).length = cs.length := by
  intro cs
  induction cs with
  | nil => intro total i; rfl
  | cons t ts ih => intro total i; simp [enumChunks, ih]

/-- The texts of `enumChunks` are the input strings. -/
theorem enumChunks_texts : ∀ (cs : List Str) (total i : Nat),
    (enumChunks total i cs).map Chunk.text = cs := by
  intro cs
  induction cs with
  | nil => intro total i; rfl
  | cons t ts ih => intro total i; simp [enumChunks, ih]

/-- Element `j` of `enumChunks total i cs` is `⟨i + j, total, cs[j]⟩`. -/
theorem enumChunks_get : ∀ (cs : List Str) (total i j : Nat)
    (hj : j < (enumChunks total i cs).length)
    (hj' : j < cs.length),
    (enumChunks total i cs).get ⟨j, hj⟩ = ⟨i + j, total, cs.get ⟨j, hj'⟩⟩ := by
  intro cs
  induction cs with
  | nil => intro total i j hj hj'; simp at hj'
  | cons t ts ih =>
    intro total i j hj hj'
    cases j with
    | zero => rfl
    | succ m =>
      have hm : m < (enumChunks total (i + 1) ts).length := by
        rw [enumChunks_length]
        simpa using hj'
      have hm' : m < ts.length := by simpa using hj'
      show (enumChunks total (i + 1) ts).get ⟨m, hm⟩ = _
      rw [ih total (i + 1) m hm hm']
      have : i + 1 + m = i + (m + 1) := by omega
      rw [this]
      rfl

/-- All chunks the hard-split loop emits after the first start with the
continuation marker, provided the marker fits in `maxChunkChars`; and the
loop's final `current` starts with the marker once anything was emitted. -/
theorem hsLoop_prefix_inv (pfxC : Str) (maxC ovlC : Nat) (hp : pfxC.length ≤ maxC) :
    ∀ (fuel : Nat) (remaining : Str) (chunks out : List Str) (cur : Str),
      (∀ x ∈ chunks.drop 1, lPrefix pfxC x = true) →
      (chunks ≠ [] → lPrefix pfxC remaining = true) →
      hsLoop pfxC maxC ovlC fuel remaining chunks = some (out, cur) →
      (∀ x ∈ out.drop 1, lPrefix pfxC x = true) ∧ (out ≠ [] → lPrefix pfxC cur = true) := by
  intro fuel
  induction fuel with
  | zero =>
    intro rem chs out cur h1 h2 heq
    rw [hsLoop] at heq
    by_cases hg : maxC < rem.length
    · rw [if_pos hg] at heq; simp at heq
    · rw [if_neg hg] at heq
      simp only [Option.some.injEq, Prod.mk.injEq] at heq
      obtain ⟨rfl, rfl⟩ := heq
      exact ⟨h1, h2⟩
  | succ n ih =>
    intro rem chs out cur h1 h2 heq
    rw [hsLoop] at heq
    by_cases hg : maxC < rem.length
    · rw [if_pos hg] at heq
      refine ih _ _ _ _ ?_ ?_ heq
      · refine dropOne_snoc chs _ h1 ?_
        intro hne
        exact lPrefix_take (h2 hne) hp
      · intro _
        rw [List.append_assoc]
        exact lPrefix_append pfxC _
    · rw [if_neg hg] at heq
      simp only [Option.some.injEq, Prod.mk.injEq] at heq
      obtain ⟨rfl, rfl⟩ := heq
      exact ⟨h1, h2⟩

/-- All chunks `mergeGo` produces after the first start with the continuation
marker (every terminating execution of `mergeSegments` has this shape). -/
theorem mergeGo_prefix_inv (pfxC : Str) (maxC ovlC : Nat) (fuel : Nat) :
    ∀ (segs : List Str) (current : Str) (chunks out : List Str),
      (∀ x ∈ chunks.drop 1, lPrefix pfxC x = true) →
      (chunks ≠ [] → lPrefix pfxC current = true) →
      mergeGo pfxC maxC ovlC fuel segs current chunks = some out →
      ∀ x ∈ out.drop 1, lPrefix pfxC x = true := by
  intro segs
  induction segs with
  | nil =>
    intro current chunks out h1 h2 heq
    rw [mergeGo] at heq
    simp only [Option.some.injEq] at heq
    by_cases hc : 0 < current.length
    · rw [if_pos hc] at heq
      subst heq
      exact dropOne_snoc chunks current h1 h2
    · rw [if_neg hc] at heq
      subst heq
      exact h1
  | cons seg rest ih =>
    intro current chunks out h1 h2 heq
    simp only [mergeGo] at heq
    by_cases hfin : (decide (0 < current.length) && decide (maxC < current.length + seg.length)) = true
    · rw [if_pos hfin, if_pos hfin] at heq
      have h1' : ∀ x ∈ (chunks ++ [current]).drop 1, lPrefix pfxC x = true :=
        dropOne_snoc chunks current h1 h2
      have h2' : lPrefix pfxC
          (pfxC ++ (if 0 < ovlC then jsSliceFrom current (-(ovlC : Int)) else [])) = true :=
        lPrefix_append pfxC _
      by_cases hseg : maxC < seg.length
      · rw [if_pos hseg] at heq
        rcases le_or_lt pfxC.length maxC with hple | hplt
        · cases hXY : hsLoop pfxC maxC ovlC fuel
              ((pfxC ++ (if 0 < ovlC then jsSliceFrom current (-(ovlC : Int)) else [])) ++ seg)
              (chunks ++ [current]) with
          | none => rw [hXY] at heq; simp at heq
          | some pr =>
            obtain ⟨c2, cu2⟩ := pr
            rw [hXY] at heq
            have hinv := hsLoop_prefix_inv pfxC maxC ovlC hple fuel _ _ _ _ h1'
              (fun _ => lPrefix_extend h2' seg) hXY
            exact ih cu2 c2 out hinv.1 hinv.2 heq
        · rw [hsLoop_none_of_big_marker pfxC maxC ovlC (le_of_lt hplt) fuel _ _
              (by rw [List.length_append]; omega)] at heq
          simp at heq
      · rw [if_neg hseg] at heq
        exact ih _ _ out h1' (fun _ => lPrefix_extend h2' seg) heq
    · rw [if_neg hfin, if_neg hfin] at heq
      by_cases hseg : maxC < seg.length
      · rw [if_pos hseg] at heq
        rcases le_or_lt pfxC.length maxC with hple | hplt
        · cases hXY : hsLoop pfxC maxC ovlC fuel (current ++ seg) chunks with
          | none => rw [hXY] at heq; simp at heq
          | some pr =>
            obtain ⟨c2, cu2⟩ := pr
            rw [hXY] at heq
            have hinv := hsLoop_prefix_inv pfxC maxC ovlC hple fuel _ _ _ _ h1
              (fun hne => lPrefix_extend (h2 hne) seg) hXY
            exact ih cu2 c2 out hinv.1 hinv.2 heq
        · rw [hsLoop_none_of_big_marker pfxC maxC ovlC (le_of_lt hplt) fuel _ _
              (by rw [List.length_append]; omega)] at heq
          simp at heq
      · rw [if_neg hseg] at heq
        exact ih _ _ out h1 (fun hne => lPrefix_extend (h2 hne) seg) heq

/-- C4: for every chunk sequence `C` returned by `chunkText`,
`C[i].index = i` and `C[i].total = |C|` for every position `i`, and the text
of every chunk after the first begins with the continuation marker
`"{toolName}: ... "` (inputs on which the hard-split loop diverges return no
sequence at all, so the property holds for every returned sequence, whatever
the relation between `maxChunkChars` and the marker length). -/
theorem chunkText_indices_and_marker (fuel : Nat) (text tnp : Str) (maxC ovlC : Nat)
    (C : List Chunk) (h : chunkText fuel text tnp maxC ovlC = some C) :
    (∀ (i : Nat) (hi : i < C.length),
        (C.get ⟨i, hi⟩).index = i ∧ (C.get ⟨i, hi⟩).total = C.length)
    ∧ ∀ ch ∈ C.drop 1, lPrefix (contMark tnp) ch.text = true := by
  rw [chunkText] at h
  by_cases hfast : maxC = 0 ∨ text.length ≤ maxC
  · rw [if_pos hfast] at h
    simp only [Option.some.injEq] at h
    subst h
    constructor
    · intro i hi
      cases i with
      | zero => exact ⟨rfl, rfl⟩
      | succ m => simp at hi
    · intro ch hch
      simp at hch
  · rw [if_neg hfast] at h
    cases hm : mergeSegments fuel (splitSegments text) tnp maxC ovlC with
    | none => rw [hm] at h; simp at h
    | some cs =>
      rw [hm] at h
      simp only [Option.some.injEq] at h
      subst h
      constructor
      · intro i hi
        have hi' : i < cs.length := by
          rw [← enumChunks_length cs cs.length 0]
          exact hi
        rw [enumChunks_get cs cs.length 0 i hi hi']
        exact ⟨Nat.zero_add i, (enumChunks_length cs cs.length 0).symm⟩
      · intro ch hch
        have htext : ch.text ∈ cs.drop 1 := by
          have h1 : ((enumChunks cs.length 0 cs).drop 1).map Chunk.text = cs.drop 1 := by
            rw [List.map_drop, enumChunks_texts]
          rw [← h1]
          exact List.mem_map_of_mem Chunk.text hch
        rw [mergeSegments] at hm
        exact mergeGo_prefix_inv (contMark tnp) maxC ovlC fuel (splitSegments text) [] [] cs
          (by intro x hx; simp at hx) (fun hne => absurd rfl hne) hm ch.text htext

/-- C4 witness: a concrete three-chunk split where every chunk carries its
position and the total, and both continuation chunks start with
`"my_tool: ... "`. -/
theorem chunkText_indices_and_marker_witness :
    chunkText 100 c4text c4tool 25 5 = some c4chunks
    ∧ ∀ ch ∈ c4chunks.drop 1, lPrefix (contMark c4tool) ch.text = true :=
  ⟨by decide, (chunkText_indices_and_marker 100 c4text c4tool 25 5 c4chunks (by decide)).2⟩

/-- In an assoc list with pairwise-distinct keys, equal keys force equal
pairs. -/
theorem pair_eq_of_fst_nodup :
    ∀ (m : List (String × SearchResult)), (m.map Prod.fst).Nodup →
      ∀ {p q : String × SearchResult}, p ∈ m → q ∈ m → p.1 = q.1 → p = q := by
  intro m
  induction m with
  | nil => intro _ p q hp; cases hp
  | cons a l ih =>
    intro hnd p q hp hq hk
    rw [List.map_cons, List.nodup_cons] at hnd
    rcases List.mem_cons.1 hp with rfl | hpl
    · rcases List.mem_cons.1 hq with rfl | hql
      · rfl
      · exact absurd (hk ▸ List.mem_map_of_mem Prod.fst hql) hnd.1
    · rcases List.mem_cons.1 hq with rfl | hql
      · exact absurd (hk ▸ List.mem_map_of_mem Prod.fst hpl) hnd.1
      · exact ih hnd.2 hpl hql hk


/-- One step of the dedup loop preserves the `seen`-map invariant of the
search operator: keys are the joined keys of their values, every value was
seen, every value carries the maximal score of its key so far, keys are
pairwise distinct, and every processed key is present. -/
theorem dedupStep_inv (processed : List SearchResult) (seen : List (String × SearchResult))
    (r : SearchResult)
    (hkk : ∀ p ∈ seen, p.1 = joinedKey p.2)
    (hmem : ∀ p ∈ seen, p.2 ∈ processed)
    (hmax : ∀ p ∈ seen, ∀ x ∈ processed, joinedKey x = p.1 → x.score ≤ p.2.score)
    (hnd : (seen.map Prod.fst).Nodup)
    (hcomp : ∀ x ∈ processed, ∃ p ∈ seen, p.1 = joinedKey x) :
    (∀ p ∈ dedupStep seen r, p.1 = joinedKey p.2)
    ∧ (∀ p ∈ dedupStep seen r, p.2 ∈ processed ++ [r])
    ∧ (∀ p ∈ dedupStep seen r, ∀ x ∈ processed ++ [r], joinedKey x = p.1 → x.score ≤ p.2.score)
    ∧ ((dedupStep seen r).map Prod.fst).Nodup
    ∧ (∀ x ∈ processed ++ [r], ∃ p ∈ dedupStep seen r, p.1 = joinedKey x) := by
  cases hg : mapGet seen (joinedKey r) with
  | none =>
    have hne : ∀ p ∈ seen, ¬(p.1 = joinedKey r) := by
      intro p hp
      have hfind : seen.find? (fun p => p.1 = joinedKey r) = none :=
        Option.map_eq_none.1 hg
      have := List.find?_eq_none.1 hfind p hp
      simpa using this
    have hany : (seen.any fun p => p.1 = joinedKey r) = false := by
      rw [Bool.eq_false_iff]
      intro htrue
      obtain ⟨p, hp, hpk⟩ := List.any_eq_true.1 htrue
      exact hne p hp (by simpa using hpk)
    have hset : dedupStep seen r = seen ++ [(joinedKey r, r)] := by
      simp only [dedupStep, hg]
      rw [mapSet, if_neg (by rw [hany]; simp)]
    rw [hset]
    refine ⟨?_, ?_, ?_, ?_, ?_⟩
    · intro p hp
      rcases List.mem_append.1 hp with h | h
      · exact hkk p h
      · rw [List.mem_singleton.1 h]
    · intro p hp
      rcases List.mem_append.1 hp with h | h
      · exact List.mem_append_left _ (hmem p h)
      · rw [List.mem_singleton.1 h]
        exact List.mem_append_right _ (List.mem_singleton_self r)
    · intro p hp x hx hkey
      rcases List.mem_append.1 hp with h | h
      · rcases List.mem_append.1 hx with hxp | hxr
        · exact hmax p h x hxp hkey
        · rw [List.mem_singleton.1 hxr] at hkey
          exact absurd hkey.symm (hne p h)
      · rw [List.mem_singleton.1 h] at hkey ⊢
        rcases List.mem_append.1 hx with hxp | hxr
        · obtain ⟨q, hq, hqk⟩ := hcomp x hxp
          exact absurd (hqk.trans hkey) (hne q hq)
        · rw [List.mem_singleton.1 hxr]
    · rw [List.map_append]
      refine List.Nodup.append hnd (List.nodup_singleton _) ?_
      intro a ha hb
      have hak : a = joinedKey r := by simpa using hb
      rw [hak] at ha
      obtain ⟨p, hp, hpk⟩ := List.mem_map.1 ha
      exact hne p hp hpk
    · intro x hx
      rcases List.mem_append.1 hx with h | h
      · obtain ⟨p, hp, hpk⟩ := hcomp x h
        exact ⟨p, List.mem_append_left _ hp, hpk⟩
      · rw [List.mem_singleton.1 h]
        exact ⟨(joinedKey r, r), List.mem_append_right _ (List.mem_singleton_self _), rfl⟩
  | some ex =>
    obtain ⟨q, hqf⟩ : ∃ q, seen.find? (fun p => p.1 = joinedKey r) = some q := by
      cases hf : seen.find? (fun p => p.1 = joinedKey r) with
      | none => rw [mapGet, hf] at hg; simp at hg
      | some q => exact ⟨q, rfl⟩
    have hqmem : q ∈ seen := List.mem_of_find?_eq_some hqf
    have hqk : q.1 = joinedKey r := by
      have := List.find?_some hqf
      simpa using this
    have hqex : q.2 = ex := by
      rw [mapGet, hqf] at hg
      simpa using hg
    have hany : (seen.any fun p => p.1 = joinedKey r) = true :=
      List.any_eq_true.2 ⟨q, hqmem, by simpa using hqk⟩
    by_cases hlt : ex.score < r.score
    · have hset : dedupStep seen r
          = seen.map fun p => if p.1 = joinedKey r then (joinedKey r, r) else p := by
        simp only [dedupStep, hg]
        rw [if_pos hlt, mapSet, if_pos hany]
      have hfst : ∀ p : String × SearchResult,
          (if p.1 = joinedKey r then (joinedKey r, r) else p).1 = p.1 := by
        intro p
        by_cases hpk : p.1 = joinedKey r
        · rw [if_pos hpk, hpk]
        · rw [if_neg hpk]
      rw [hset]
      refine ⟨?_, ?_, ?_, ?_, ?_⟩
      · intro p' hp'
        obtain ⟨p, hp, rfl⟩ := List.mem_map.1 hp'
        by_cases hpk : p.1 = joinedKey r
        · rw [if_pos hpk]
        · rw [if_neg hpk]; exact hkk p hp
      · intro p' hp'
        obtain ⟨p, hp, rfl⟩ := List.mem_map.1 hp'
        by_cases hpk : p.1 = joinedKey r
        · rw [if_pos hpk]
          exact List.mem_append_right _ (List.mem_singleton_self r)
        · rw [if_neg hpk]
          exact List.mem_append_left _ (hmem p hp)
      · intro p' hp' x hx hkey
        obtain ⟨p, hp, rfl⟩ := List.mem_map.1 hp'
        by_cases hpk : p.1 = joinedKey r
        · rw [if_pos hpk] at hkey ⊢
          rcases List.mem_append.1 hx with hxp | hxr
          · have hxq : joinedKey x = q.1 := by rw [hqk]; exact hkey
            have := hmax q hqmem x hxp hxq
            rw [hqex] at this
            exact le_trans this (le_of_lt hlt)
          · rw [List.mem_singleton.1 hxr]
        · rw [if_neg hpk] at hkey ⊢
          rcases List.mem_append.1 hx with hxp | hxr
          · exact hmax p hp x hxp hkey
          · rw [List.mem_singleton.1 hxr] at hkey
            exact absurd hkey.symm hpk
      · have hkeys : ((seen.map fun p => if p.1 = joinedKey r then (joinedKey r, r) else p).map
            Prod.fst) = seen.map Prod.fst := by
          rw [List.map_map]
          exact List.map_congr_left fun p _ => hfst p
        rw [hkeys]
        exact hnd
      · intro x hx
        rcases List.mem_append.1 hx with hxp | hxr
        · obtain ⟨p, hp, hpk⟩ := hcomp x hxp
          refine ⟨(if p.1 = joinedKey r then (joinedKey r, r) else p),
            List.mem_map_of_mem _ hp, ?_⟩
          rw [hfst p]
          exact hpk
        · rw [List.mem_singleton.1 hxr]
          refine ⟨(joinedKey r, r), ?_, rfl⟩
          have hq' : (if q.1 = joinedKey r then (joinedKey r, r) else q) = (joinedKey r, r) := by
            rw [if_pos hqk]
          exact List.mem_map.2 ⟨q, hqmem, hq'⟩
    · have hset : dedupStep seen r = seen := by
        simp only [dedupStep, hg]
        rw [if_neg hlt]
      rw [hset]
      refine ⟨hkk, ?_, ?_, hnd, ?_⟩
      · intro p hp
        exact List.mem_append_left _ (hmem p hp)
      · intro p hp x hx hkey
        rcases List.mem_append.1 hx with hxp | hxr
        · exact hmax p hp x hxp hkey
        · rw [List.mem_singleton.1 hxr] at hkey ⊢
          have hpq : p = q := pair_eq_of_fst_nodup seen hnd hp hqmem (by rw [hqk, ← hkey])
          rw [hpq, hqex]
          exact le_of_not_lt hlt
      · intro x hx
        rcases List.mem_append.1 hx with hxp | hxr
        · exact hcomp x hxp
        · rw [List.mem_singleton.1 hxr]
          exact ⟨q, hqmem, hqk⟩

/-- The dedup loop of the search operator maintains its `seen`-map invariant
over any remaining input. -/
theorem dedupFoldl_inv :
    ∀ (rest processed : List SearchResult) (seen : List (String × SearchResult)),
      (∀ p ∈ seen, p.1 = joinedKey p.2) →
      (∀ p ∈ seen, p.2 ∈ processed) →
      (∀ p ∈ seen, ∀ x ∈ processed, joinedKey x = p.1 → x.score ≤ p.2.score) →
      ((seen.map Prod.fst).Nodup) →
      (∀ x ∈ processed, ∃ p ∈ seen, p.1 = joinedKey x) →
      (∀ p ∈ rest.foldl dedupStep seen, p.1 = joinedKey p.2)
      ∧ (∀ p ∈ rest.foldl dedupStep seen, p.2 ∈ processed ++ rest)
      ∧ (∀ p ∈ rest.foldl dedupStep seen,
          ∀ x ∈ processed ++ rest, joinedKey x = p.1 → x.score ≤ p.2.score)
      ∧ ((rest.foldl dedupStep seen).map Prod.fst).Nodup
      ∧ (∀ x ∈ processed ++ rest, ∃ p ∈ rest.foldl dedupStep seen, p.1 = joinedKey x) := by
  intro rest
  induction rest with
  | nil =>
    intro processed seen h1 h2 h3 h4 h5
    rw [List.foldl_nil, List.append_nil]
    exact ⟨h1, h2, h3, h4, h5⟩
  | cons r rest' ih =>
    intro processed seen h1 h2 h3 h4 h5
    obtain ⟨s1, s2, s3, s4, s5⟩ := dedupStep_inv processed seen r h1 h2 h3 h4 h5
    have hres := ih (processed ++ [r]) (dedupStep seen r) s1 s2 s3 s4 s5
    rw [List.append_assoc, List.singleton_append] at hres
    rw [List.foldl_cons]
    exact hres

/-- The values of the fully-folded `seen` map: each comes from the raw list,
their joined keys are pairwise distinct, and each carries the maximum score
of its key over the whole raw list. -/
theorem dedupFold_props (raw : List SearchResult) :
    (∀ v ∈ (dedupFold raw).map Prod.snd, v ∈ raw)
    ∧ (((dedupFold raw).map Prod.snd).map joinedKey).Nodup
    ∧ (∀ v ∈ (dedupFold raw).map Prod.snd,
        ∀ x ∈ raw, joinedKey x = joinedKey v → x.score ≤ v.score) := by
  have h := dedupFoldl_inv raw [] []
    (by intro p hp; cases hp) (by intro p hp; cases hp)
    (by intro p hp; cases hp) (by simp) (by intro x hx; cases hx)
  rw [List.nil_append] at h
  obtain ⟨hkk, hmem, hmax, hnd, _⟩ := h
  refine ⟨?_, ?_, ?_⟩
  · intro v hv
    obtain ⟨p, hp, rfl⟩ := List.mem_map.1 hv
    exact hmem p hp
  · have hkeys : ((dedupFold raw).map Prod.snd).map joinedKey
        = (dedupFold raw).map Prod.fst := by
      rw [List.map_map]
      exact List.map_congr_left fun p hp => (hkk p hp).symm
    rw [hkeys]
    exact hnd
  · intro v hv x hx hkey
    obtain ⟨p, hp, rfl⟩ := List.mem_map.1 hv
    exact hmax p hp x hx (hkey.trans (hkk p hp).symm)

/-- C6 (amended): the search operator's final output collapses the store's
result list by the joined string key `server_name ++ "::" ++ tool_name`
(which coincides with the pair `(server_name, tool_name)` whenever no name
contains `"::"`): the output draws from the raw list, holds at most one entry
per joined key, gives each surviving entry the maximum score of its key, is
sorted in descending order of score, and is truncated to the limit. -/
theorem mcp_search_dedup_laws (raw : List SearchResult) (limit : Nat) :
    mcpSearchFinalize raw limit ⊆ raw
    ∧ ((mcpSearchFinalize raw limit).map joinedKey).Nodup
    ∧ List.Sorted scoreGe (mcpSearchFinalize raw limit)
    ∧ (mcpSearchFinalize raw limit).length ≤ limit
    ∧ ∀ r ∈ mcpSearchFinalize raw limit,
        ∀ x ∈ raw, joinedKey x = joinedKey r → x.score ≤ r.score := by
  obtain ⟨hsub, hnd, hmax⟩ := dedupFold_props raw
  have hperm : List.Perm (((dedupFold raw).map Prod.snd).insertionSort scoreGe)
      ((dedupFold raw).map Prod.snd) := List.perm_insertionSort scoreGe _
  have hmemsort : ∀ y ∈ mcpSearchFinalize raw limit, y ∈ (dedupFold raw).map Prod.snd := by
    intro y hy
    exact hperm.subset ((List.take_sublist _ _).subset hy)
  refine ⟨?_, ?_, ?_, ?_, ?_⟩
  · intro y hy
    exact hsub y (hmemsort y hy)
  · have h1 : List.Perm ((((dedupFold raw).map Prod.snd).insertionSort scoreGe).map joinedKey)
        (((dedupFold raw).map Prod.snd).map joinedKey) := hperm.map joinedKey
    have h2 : ((((dedupFold raw).map Prod.snd).insertionSort scoreGe).map joinedKey).Nodup :=
      h1.nodup_iff.2 hnd
    have h3 : (mcpSearchFinalize raw limit).map joinedKey
        = ((((dedupFold raw).map Prod.snd).insertionSort scoreGe).map joinedKey).take limit :=
      List.map_take _ _ _
    rw [h3]
    exact h2.sublist (List.take_sublist _ _)
  · exact List.Pairwise.sublist (List.take_sublist _ _)
      (List.sorted_insertionSort scoreGe ((dedupFold raw).map Prod.snd))
  · exact List.length_take_le _ _
  · intro r hr x hx hkey
    exact hmax r (hmemsort r hr) x hx hkey

/-- C6 (counterexample): with server names containing `"::"` the joined key
conflates distinct `(server_name, tool_name)` pairs — the operator keeps only
one of `("a::b", "c")` and `("a", "b::c")` while the spec's pair-keyed
collapse keeps both — so the operator's output does not equal the claimed
pair-keyed collapse for every result list. -/
theorem search_dedup_pair_mismatch :
    mcpSearchFinalize [cexColA, cexColB] 5 ≠ specSearchDedupByPair [cexColA, cexColB] 5 := by
  decide

/-- C6 witness: chunks `fs::read_file` at scores 85 and 92 plus
`git::git_log` at 80, limit 2 — the output length respects the limit and the
kept `read_file` entry dominates the other chunk's score. -/
theorem mcp_search_dedup_laws_witness :
    (mcpSearchFinalize [wRes1, wRes2, wRes3] 2).length ≤ 2
    ∧ wRes2 ∈ mcpSearchFinalize [wRes1, wRes2, wRes3] 2
    ∧ wRes1.score ≤ wRes2.score := by
  have h := mcp_search_dedup_laws [wRes1, wRes2, wRes3] 2
  exact ⟨h.2.2.2.1, by decide,
    h.2.2.2.2 wRes2 (by decide) wRes1 (by decide) (by decide)⟩
